import Mathlib

/-!
Shallow embedding of `src/photosort/duplicates.py` (photosort duplicate
detection) and proofs of the specification claims about it.

Modelling conventions:
* Python `int` values that are provably non-negative in this code (file
  sizes from `stat`, pixel dimensions, hamming distances, thresholds) are
  `Nat`; values that may go negative (`total - duplicates` style
  subtraction) are `Int`.
* Python `float` arithmetic is modelled with exact rationals (`ℚ`).
* I/O outcomes are explicit fields of the candidate: `digest_outcome` is
  the result of reading the file's bytes and hashing them (`none` models
  an I/O failure), `image_dimensions` is the result of decoding the image
  (`none` models PIL being unavailable).
* Python object identity: candidates in one group are distinct objects in
  the program, which the embedding renders as `List.Nodup` hypotheses
  where the code relies on identity-based `!=`.
* Python dicts preserve insertion order; they are modelled as association
  lists with append-at-end insertion.
-/

namespace Photosort

/-- Quality metrics record, as produced by
`DuplicateCandidate._calculate_quality_metrics` (float fields modelled as
rationals). -/
structure QualityMetrics where
  sharpness : ℚ
  brightness : ℚ
  contrast : ℚ
  color_richness : ℚ
  deriving DecidableEq, Repr

/-- `DuplicateCandidate`: one file with its size, optional perceptual hash,
the outcome of the (lazy) content-digest computation, the outcome of the
(lazy) image decode, and its quality metrics. -/
structure Candidate where
  file_path : String
  file_size : Nat
  image_hash : Option String
  digest_outcome : Option String
  image_dimensions : Option (Nat × Nat)
  quality : QualityMetrics
  deriving DecidableEq, Repr

namespace Candidate

/-- `DuplicateCandidate.image_area`: width times height, `0` when
dimensions are unavailable (the `(0, 0)` decode-failure sentinel also
yields `0`). -/
def image_area (c : Candidate) : Nat :=
  match c.image_dimensions with
  | none => 0
  | some (w, h) => w * h

/-- `DuplicateCandidate.get_md5_hash`: the md5 hexdigest of the file's
bytes, or the empty string when reading the file raised an exception. -/
def get_md5_hash (c : Candidate) : String :=
  match c.digest_outcome with
  | none => ""
  | some d => d

/-- Python truthiness of `candidate.image_hash`: present means not `None`
and not the empty string. -/
def hashPresent (c : Candidate) : Bool :=
  match c.image_hash with
  | none => false
  | some s => s ≠ ""

/-- The hash string of a candidate whose hash is present. -/
def hashStr (c : Candidate) : String :=
  c.image_hash.getD ""

end Candidate

/-- `DuplicateCandidate._calculate_quality_score`: weighted sum of
normalized metrics.  Literal translation of the Python body; floats are
exact rationals. -/
def calculate_quality_score (m : QualityMetrics) : ℚ :=
  let sharpness_norm := min (m.sharpness / 50) 1
  let contrast_norm := min (m.contrast / 100) 1
  let brightness_norm :=
    if m.brightness < 50 then m.brightness / 50
    else if m.brightness > 200 then (255 - m.brightness) / 55
    else 1
  let color_norm := min (m.color_richness / 8) 1
  0.40 * sharpness_norm + 0.25 * contrast_norm +
    0.15 * brightness_norm + 0.20 * color_norm

/-- Modelled from the spec: the §5 scoring formula as the spec states it,
`score = 0.40*min(s/50,1) + 0.25*min(c/100,1) + 0.15*b + 0.20*min(r/8,1)`
with the piecewise brightness term.  Kept separate from
`calculate_quality_score` so the two can be compared. -/
def qualityScoreSpec (m : QualityMetrics) : ℚ :=
  let b : ℚ :=
    if m.brightness < 50 then m.brightness / 50
    else if m.brightness > 200 then (255 - m.brightness) / 55
    else 1
  0.40 * min (m.sharpness / 50) 1 + 0.25 * min (m.contrast / 100) 1 +
    0.15 * b + 0.20 * min (m.color_richness / 8) 1

/-- A hex digit as accepted by Python `int(s, 16)`. -/
def isHexDigit (c : Char) : Bool :=
  c.isDigit || ('a' ≤ c && c ≤ 'f') || ('A' ≤ c && c ≤ 'F')

/-- Numeric value of a hex digit. -/
def hexDigitVal (c : Char) : Nat :=
  if c.isDigit then c.toNat - '0'.toNat
  else if 'a' ≤ c && c ≤ 'f' then c.toNat - 'a'.toNat + 10
  else c.toNat - 'A'.toNat + 10

/-- The ASCII whitespace characters Python strips around an `int()`
literal (`' '`, `'\t'`, `'\n'`, `'\r'`, `'\x0b'`, `'\x0c'`). -/
def pyIsSpace (c : Char) : Bool :=
  c = ' ' || c = '\t' || c = '\n' || c = '\r' || c = '\x0b' || c = '\x0c'

/-- Strip leading and trailing whitespace, as `int()` does. -/
def stripSpaces (l : List Char) : List Char :=
  ((l.dropWhile pyIsSpace).reverse.dropWhile pyIsSpace).reverse

/-- Parse hex digits after the first one: single underscores are allowed
between digits only — not trailing, not doubled. -/
def hexTail : List Char → Nat → Option Nat
  | [], acc => some acc
  | '_' :: c :: rest, acc =>
      if isHexDigit c then hexTail rest (16 * acc + hexDigitVal c) else none
  | ['_'], _ => none
  | c :: rest, acc =>
      if isHexDigit c then hexTail rest (16 * acc + hexDigitVal c) else none

/-- Parse a non-empty run of hex digits that must start with a digit
(no leading underscore). -/
def hexDigits : List Char → Option Nat
  | [] => none
  | c :: rest => if isHexDigit c then hexTail rest (hexDigitVal c) else none

/-- After a `0x`/`0X` base marker one single underscore may precede the
first digit (`0x_1f` parses, `0x__1f` does not). -/
def hexAfterBase : List Char → Option Nat
  | '_' :: rest => hexDigits rest
  | rest => hexDigits rest

/-- The digits part of a hex literal: optional `0x`/`0X` marker, then
digits. -/
def hexBody : List Char → Option Nat
  | '0' :: 'x' :: rest => hexAfterBase rest
  | '0' :: 'X' :: rest => hexAfterBase rest
  | l => hexDigits l

/-- An optionally signed hex literal: the sign must directly precede the
digits part. -/
def hexSigned : List Char → Option Int
  | '+' :: rest => (hexBody rest).map (fun n => (n : Int))
  | '-' :: rest => (hexBody rest).map (fun n => -(n : Int))
  | l => (hexBody l).map (fun n => (n : Int))

/-- Python `int(s, 16)` (ASCII fragment: non-ASCII digit and space
forms, which never arise for hash strings, are not modelled): strip
surrounding whitespace, then an optional sign, an optional `0x`/`0X`
marker and digits with single separating underscores; `none` models the
`ValueError` raised on any other input. -/
def pyIntHex (s : String) : Option Int :=
  hexSigned (stripSpaces s.data)

/-- A string is valid hexadecimal exactly when Python `int(s, 16)`
accepts it. -/
def validHex (s : String) : Bool :=
  (pyIntHex s).isSome

/-- Structural helper for `popCount`: the first argument is fuel, always
at least the number being counted, so it never runs out. -/
def popCountAux : Nat → Nat → Nat
  | 0, _ => 0
  | _, 0 => 0
  | fuel + 1, n + 1 => (n + 1) % 2 + popCountAux fuel ((n + 1) / 2)

/-- Number of `1` bits, i.e. Python `bin(n).count('1')` for `n ≥ 0`. -/
def popCount (n : Nat) : Nat :=
  popCountAux n n

/-- Python `^` on unbounded ints (infinite two's complement): with
`~n = -n-1`, `~a ^ ~b = a ^ b` and `a ^ ~b = ~(a ^ b)`. -/
def pyXor (a b : Int) : Int :=
  if 0 ≤ a then
    if 0 ≤ b then (Nat.xor a.toNat b.toNat : Int)
    else -(Nat.xor a.toNat (-b - 1).toNat : Int) - 1
  else
    if 0 ≤ b then -(Nat.xor (-a - 1).toNat b.toNat : Int) - 1
    else (Nat.xor (-a - 1).toNat (-b - 1).toNat : Int)

/-- Python `bin(r).count('1')`: `bin` of a negative int renders
`-0b...` of the magnitude, so the count is over the magnitude's bits. -/
def pyPopCount (r : Int) : Nat :=
  if 0 ≤ r then popCount r.toNat else popCount (-r).toNat

/-- `DuplicateDetector.calculate_hamming_distance`: population count of
the XOR of the two hashes read as hex; `none` is the `float('inf')`
sentinel returned when either hash is empty, the lengths differ, or
parsing fails. -/
def calculate_hamming_distance (hash1 hash2 : String) : Option Nat :=
  if hash1 = "" ∨ hash2 = "" ∨ hash1.length ≠ hash2.length then none
  else
    match pyIntHex hash1, pyIntHex hash2 with
    | some int1, some int2 => some (pyPopCount (pyXor int1 int2))
    | _, _ => none

/-- `DuplicateDetector.are_similar`: distance at most the threshold; the
infinite sentinel compares greater than every finite threshold. -/
def are_similar (threshold : Nat) (hash1 hash2 : String) : Bool :=
  match calculate_hamming_distance hash1 hash2 with
  | none => false
  | some distance => distance ≤ threshold

/-- The sort key used by `DuplicateGroup.best_candidate`:
`(c.file_size, c.image_area)`. -/
def candKey (c : Candidate) : Nat × Nat :=
  (c.file_size, c.image_area)

/-- Replace a candidate's quality record, leaving everything else
unchanged (used to express that `best_candidate` never reads quality). -/
def setQuality (q : QualityMetrics) (c : Candidate) : Candidate :=
  { c with quality := q }

/-- Python tuple `>` on `(Nat, Nat)` pairs: lexicographic, first component
first. -/
def pairGt (a b : Nat × Nat) : Bool :=
  b.1 < a.1 || (a.1 == b.1 && b.2 < a.2)

/-- Python tuple `<` on `(Nat, Nat)` pairs. -/
def pairLt (a b : Nat × Nat) : Bool :=
  pairGt b a

/-- Python `max(xs, key=...)` with `xs = first :: rest`: fold keeping the
current maximum, replacing it only on a strictly greater key, so ties keep
the earliest element. -/
def firstMax (first : Candidate) (rest : List Candidate) : Candidate :=
  rest.foldl (fun best c => if pairGt (candKey c) (candKey best) then c else best) first

/-- `DuplicateGroup.best_candidate`:
`max(candidates, key=lambda c: (c.file_size, c.image_area))`; `none`
models the `ValueError` Python `max` raises on an empty sequence. -/
def best_candidate (candidates : List Candidate) : Option Candidate :=
  match candidates with
  | [] => none
  | first :: rest => some (firstMax first rest)

/-- `DuplicateGroup.duplicates_to_remove`:
`[c for c in candidates if c != best]`.  The Python `!=` is object
identity here; distinct objects are modelled as distinct candidate values
(`Nodup` hypotheses at the use sites). -/
def duplicates_to_remove (candidates : List Candidate) : List Candidate :=
  match best_candidate candidates with
  | none => []
  | some best => candidates.filter (fun c => c ≠ best)

/-- `DuplicateGroup.get_total_size`: sum of the members' file sizes. -/
def get_total_size (candidates : List Candidate) : Nat :=
  (candidates.map Candidate.file_size).sum

/-- `DuplicateGroup.get_wasted_space`: sum of the file sizes of the
members slated for removal. -/
def get_wasted_space (candidates : List Candidate) : Nat :=
  ((duplicates_to_remove candidates).map Candidate.file_size).sum

/-- Availability of the optional imaging libraries, which determines the
set of registered hash algorithms. -/
structure LibEnv where
  imagehashAvailable : Bool
  colorhashAvailable : Bool
  deriving DecidableEq, Repr

/-- `DuplicateDetector._get_available_algorithms`: the registered
algorithm names, in registration order. -/
def available_algorithms (env : LibEnv) : List String :=
  if env.imagehashAvailable then
    ["dhash", "phash", "ahash", "whash"] ++
      (if env.colorhashAvailable then ["colorhash"] else [])
  else []

/-- The state a successfully constructed `DuplicateDetector` holds. -/
structure Detector where
  algorithm : String
  threshold : Nat
  deriving DecidableEq, Repr

/-- `DuplicateDetector.__init__`: lowercase the requested algorithm and
raise `ValueError` (modelled as `Except.error`) when it is not among the
available algorithms; no hashing or scanning happens here. -/
def detector_init (env : LibEnv) (algorithm : String) (threshold : Nat) :
    Except String Detector :=
  let alg := algorithm.toLower
  if alg ∈ available_algorithms env then Except.ok ⟨alg, threshold⟩
  else Except.error ("Algorithm not available: " ++ algorithm)

/-- Append-at-end insertion into an insertion-ordered dict
(`hash_to_candidates[md5_hash].append(candidate)`, creating the key on
first sight). -/
def addToMap (m : List (String × List Candidate)) (k : String) (c : Candidate) :
    List (String × List Candidate) :=
  match m with
  | [] => [(k, [c])]
  | (k', cs) :: rest =>
      if k' = k then (k', cs ++ [c]) :: rest
      else (k', cs) :: addToMap rest k c

/-- The dict-building loop of `DuplicateDetector.find_exact_duplicates`:
candidates with a falsy (empty) digest are skipped by the
`if md5_hash:` guard. -/
def buildDigestMap (candidates : List Candidate)
    (m : List (String × List Candidate)) : List (String × List Candidate) :=
  match candidates with
  | [] => m
  | c :: rest =>
      let d := c.get_md5_hash
      if d ≠ "" then buildDigestMap rest (addToMap m d c)
      else buildDigestMap rest m

/-- `DuplicateDetector.find_exact_duplicates`: group by digest, keep only
the value lists with more than one member (groups are returned as their
member lists). -/
def find_exact_duplicates (candidates : List Candidate) : List (List Candidate) :=
  (buildDigestMap candidates []).filterMap
    (fun kv => if 1 < kv.2.length then some kv.2 else none)

/-- The inner loop of `DuplicateDetector.find_duplicates`: scan the
candidates after the anchor, collecting every unconsumed one with a
present hash similar to the anchor's hash and marking it consumed.
Candidates are carried with their input index. -/
def simInner (threshold : Nat) (anchorHash : String) :
    List (Nat × Candidate) → List Nat → List (Nat × Candidate) × List Nat
  | [], processed => ([], processed)
  | (j, c2) :: rest, processed =>
      if j ∈ processed ∨ ¬ c2.hashPresent then
        simInner threshold anchorHash rest processed
      else if are_similar threshold anchorHash c2.hashStr then
        ((j, c2) :: (simInner threshold anchorHash rest (j :: processed)).1,
          (simInner threshold anchorHash rest (j :: processed)).2)
      else
        simInner threshold anchorHash rest processed

/-- The outer loop of `DuplicateDetector.find_duplicates`: each
unconsumed candidate with a present hash anchors a new group; the group
is emitted only when it gained at least one more member. -/
def simOuter (threshold : Nat) :
    List (Nat × Candidate) → List Nat → List (List (Nat × Candidate))
  | [], _ => []
  | (i, c1) :: rest, processed =>
      if i ∈ processed ∨ ¬ c1.hashPresent then
        simOuter threshold rest processed
      else
        if 1 < ((i, c1) ::
            (simInner threshold c1.hashStr rest (i :: processed)).1).length then
          ((i, c1) :: (simInner threshold c1.hashStr rest (i :: processed)).1) ::
            simOuter threshold rest
              (simInner threshold c1.hashStr rest (i :: processed)).2
        else
          simOuter threshold rest
            (simInner threshold c1.hashStr rest (i :: processed)).2

/-- `DuplicateDetector.find_duplicates` with input indices kept on the
members. -/
def findDupGroups (threshold : Nat) (candidates : List Candidate) :
    List (List (Nat × Candidate)) :=
  simOuter threshold candidates.enum []

/-- `DuplicateDetector.find_duplicates`: the emitted groups, as member
lists. -/
def find_duplicates (threshold : Nat) (candidates : List Candidate) :
    List (List Candidate) :=
  (findDupGroups threshold candidates).map (List.map Prod.snd)

/-- The statistics record returned by `DuplicateDetector.get_statistics`
(`original_files` is a Python `int` subtraction, `space_savings_percent`
a float ratio). -/
structure Stats where
  duplicate_groups : Nat
  total_files_in_groups : Nat
  duplicate_files : Nat
  original_files : Int
  total_size_bytes : Nat
  wasted_space_bytes : Nat
  space_savings_percent : ℚ
  deriving DecidableEq, Repr

/-- `DuplicateDetector.get_statistics`. -/
def get_statistics (groups : List (List Candidate)) : Stats :=
  let total_files := (groups.map List.length).sum
  let total_duplicates := (groups.map (fun g => (duplicates_to_remove g).length)).sum
  let total_size := (groups.map get_total_size).sum
  let wasted_space := (groups.map get_wasted_space).sum
  { duplicate_groups := groups.length
    total_files_in_groups := total_files
    duplicate_files := total_duplicates
    original_files := (total_files : Int) - total_duplicates
    total_size_bytes := total_size
    wasted_space_bytes := wasted_space
    space_savings_percent :=
      if 0 < total_size then (wasted_space : ℚ) / total_size * 100 else 0 }

/-! Concrete sample candidates, used to exercise the theorems on closed
inputs. -/

/-- All-zero quality metrics (the decode-failure default). -/
def qmZero : QualityMetrics := ⟨0, 0, 0, 0⟩

/-- A small photo with a perceptual hash and a digest. -/
def sampleA : Candidate := ⟨"a.jpg", 1024, some "F0F0", some "d1", some (10, 10), qmZero⟩

/-- A larger photo one bit away from `sampleA` with the same digest. -/
def sampleB : Candidate := ⟨"b.jpg", 2048, some "F0F1", some "d1", some (20, 20), qmZero⟩

/-- A photo tying with `sampleB` on `(file_size, image_area)`. -/
def sampleC : Candidate := ⟨"c.jpg", 2048, some "ABCD", some "d2", some (20, 20), qmZero⟩

/-- A candidate whose digest computation failed with an I/O error. -/
def failA : Candidate := ⟨"fa.jpg", 10, none, none, none, qmZero⟩

/-- Another candidate whose digest computation failed. -/
def failB : Candidate := ⟨"fb.jpg", 20, none, none, none, qmZero⟩

/-! ## Claim theorems -/

/-- Helper: an invalid hex string fails to parse. -/
theorem pyIntHex_eq_none {s : String} (h : ¬ validHex s = true) :
    pyIntHex s = none := by
  unfold validHex at h
  cases e : pyIntHex s with
  | none => rfl
  | some v =>
      rw [e] at h
      simp at h

/-- **C4**: `calculate_hamming_distance` returns the infinite-distance
sentinel (`none`) whenever either hash is empty, the lengths differ, or
either hash is not valid hexadecimal, and `are_similar` is then false at
every threshold.  The functions are total, which models "never raises". -/
theorem C4_malformed_hash_distance (hash1 hash2 : String)
    (h : hash1 = "" ∨ hash2 = "" ∨ hash1.length ≠ hash2.length ∨
      ¬ validHex hash1 = true ∨ ¬ validHex hash2 = true) :
    calculate_hamming_distance hash1 hash2 = none ∧
      ∀ threshold, are_similar threshold hash1 hash2 = false := by
  have hd : calculate_hamming_distance hash1 hash2 = none := by
    unfold calculate_hamming_distance
    split
    · rfl
    · rename_i hc
      push_neg at hc
      rcases h with h | h | h | h | h
      · exact absurd h hc.1
      · exact absurd h hc.2.1
      · exact absurd hc.2.2 h
      · rw [pyIntHex_eq_none h]
      · rw [pyIntHex_eq_none h]
        split <;> simp_all
  refine ⟨hd, fun threshold => ?_⟩
  unfold are_similar
  rw [hd]

/-- Witness for C4 at a concrete non-hex pair. -/
theorem C4_malformed_hash_distance_witness :
    calculate_hamming_distance "zz" "ff" = none ∧
      are_similar 5 "zz" "ff" = false :=
  ⟨(C4_malformed_hash_distance "zz" "ff" (by decide)).1,
   (C4_malformed_hash_distance "zz" "ff" (by decide)).2 5⟩

/-- **C5**: the quality score is the weighted sum
`0.40*min(s/50,1) + 0.25*min(c/100,1) + 0.15*b + 0.20*min(r/8,1)` with
the piecewise brightness term, and the metrics
`{sharpness=50, contrast=100, brightness=125, colorRichness=8}` score
exactly `1`. -/
theorem C5_quality_score_formula (m : QualityMetrics) :
    calculate_quality_score m = qualityScoreSpec m ∧
      calculate_quality_score ⟨50, 125, 100, 8⟩ = 1 := by
  refine ⟨rfl, ?_⟩
  norm_num [calculate_quality_score]

/-- **C8**: constructing a `DuplicateDetector` fails with a configuration
error exactly when the (lowercased) algorithm name is not among the
available algorithms, and succeeds (yielding the detector state, with no
scanning or hashing involved) exactly when it is. -/
theorem C8_detector_init_validates (env : LibEnv) (algorithm : String)
    (threshold : Nat) :
    ((∃ msg, detector_init env algorithm threshold = Except.error msg) ↔
        algorithm.toLower ∉ available_algorithms env) ∧
    ((∃ d, detector_init env algorithm threshold = Except.ok d ∧
        d.algorithm = algorithm.toLower ∧ d.threshold = threshold) ↔
        algorithm.toLower ∈ available_algorithms env) := by
  unfold detector_init
  by_cases h : algorithm.toLower ∈ available_algorithms env <;> simp [h]

/-- Helper: `pairGt` in arithmetic form. -/
theorem pairGt_arith (a b : Nat × Nat) :
    pairGt a b = true ↔ b.1 < a.1 ∨ (a.1 = b.1 ∧ b.2 < a.2) := by
  obtain ⟨a1, a2⟩ := a
  obtain ⟨b1, b2⟩ := b
  simp [pairGt]

/-- Helper: no pair is greater than itself. -/
theorem pairGt_irrefl (a : Nat × Nat) : pairGt a a = false := by
  rw [Bool.eq_false_iff]
  intro h
  rw [pairGt_arith] at h
  omega

/-- Helper: `pairGt` is asymmetric. -/
theorem pairGt_asymm {a b : Nat × Nat} (h : pairGt a b = true) :
    pairGt b a = false := by
  rw [Bool.eq_false_iff]
  intro h'
  rw [pairGt_arith] at h h'
  omega

/-- Helper: `b` above `a` and `c` not above `a` puts `b` above `c`. -/
theorem pairGt_trans_not {a b c : Nat × Nat} (h1 : pairGt b a = true)
    (h2 : pairGt c a = false) : pairGt b c = true := by
  have h2' : ¬ (a.1 < c.1 ∨ (c.1 = a.1 ∧ a.2 < c.2)) := by
    rw [← pairGt_arith, h2]
    simp
  rw [pairGt_arith] at h1 ⊢
  omega

/-- Helper: `pairGt` is transitive. -/
theorem pairGt_trans {a b c : Nat × Nat} (h1 : pairGt a b = true)
    (h2 : pairGt b c = true) : pairGt a c = true := by
  rw [pairGt_arith] at h1 h2 ⊢
  omega

/-- Helper: the quality field does not enter the sort key. -/
theorem candKey_setQuality (q : QualityMetrics) (c : Candidate) :
    candKey (setQuality q c) = candKey c := rfl

/-- Helper: one step of the `max` fold. -/
theorem firstMax_cons (acc x : Candidate) (rest : List Candidate) :
    firstMax acc (x :: rest) =
      if pairGt (candKey x) (candKey acc) = true then firstMax x rest
      else firstMax acc rest := by
  simp only [firstMax, List.foldl_cons]
  by_cases h : pairGt (candKey x) (candKey acc) = true <;> simp [h]

/-- Helper: Python `max` keeps the earliest element among the maximal
ones — either the seed survives and nothing beats it, or the result
splits the list with strictly smaller keys before it and no greater key
after it. -/
theorem firstMax_decomp (rest : List Candidate) : ∀ acc : Candidate,
    (firstMax acc rest = acc ∧
      ∀ x ∈ rest, pairGt (candKey x) (candKey (firstMax acc rest)) = false) ∨
    (∃ l₁ l₂, rest = l₁ ++ firstMax acc rest :: l₂ ∧
      pairGt (candKey (firstMax acc rest)) (candKey acc) = true ∧
      (∀ x ∈ l₁, pairGt (candKey (firstMax acc rest)) (candKey x) = true) ∧
      (∀ x ∈ l₂, pairGt (candKey x) (candKey (firstMax acc rest)) = false)) := by
  induction rest with
  | nil =>
      intro acc
      left
      exact ⟨rfl, by simp⟩
  | cons x rest ih =>
      intro acc
      rw [firstMax_cons]
      by_cases hx : pairGt (candKey x) (candKey acc) = true
      · rw [if_pos hx]
        rcases ih x with ⟨heq, hmax⟩ | ⟨l₁, l₂, hdec, hgt, hl₁, hl₂⟩
        · right
          refine ⟨[], rest, ?_, ?_, by simp, hmax⟩
          · rw [heq]
            rfl
          · rw [heq]
            exact hx
        · right
          refine ⟨x :: l₁, l₂, ?_, ?_, ?_, hl₂⟩
          · rw [List.cons_append, ← hdec]
          · exact pairGt_trans hgt hx
          · intro y hy
            rcases List.mem_cons.mp hy with rfl | hy
            · exact hgt
            · exact hl₁ y hy
      · rw [if_neg hx]
        have hx' : pairGt (candKey x) (candKey acc) = false :=
          Bool.eq_false_iff.mpr hx
        rcases ih acc with ⟨heq, hmax⟩ | ⟨l₁, l₂, hdec, hgt, hl₁, hl₂⟩
        · left
          refine ⟨heq, ?_⟩
          intro y hy
          rcases List.mem_cons.mp hy with rfl | hy
          · rw [heq]
            exact hx'
          · exact hmax y hy
        · right
          refine ⟨x :: l₁, l₂, ?_, hgt, ?_, hl₂⟩
          · rw [List.cons_append, ← hdec]
          · intro y hy
            rcases List.mem_cons.mp hy with rfl | hy
            · exact pairGt_trans_not hgt hx'
            · exact hl₁ y hy

/-- Helper: the best candidate of a non-empty group splits the group into
strictly smaller members before it and not-greater members after it. -/
theorem best_candidate_decomp (g : List Candidate) (hne : g ≠ []) :
    ∃ b l₁ l₂, best_candidate g = some b ∧ g = l₁ ++ b :: l₂ ∧
      (∀ x ∈ l₁, pairGt (candKey b) (candKey x) = true) ∧
      (∀ x ∈ l₂, pairGt (candKey x) (candKey b) = false) := by
  cases g with
  | nil => exact absurd rfl hne
  | cons first rest =>
      rcases firstMax_decomp rest first with ⟨heq, hmax⟩ | ⟨l₁, l₂, hdec, hgt, hl₁, hl₂⟩
      · refine ⟨firstMax first rest, [], rest, rfl, ?_, by simp, hmax⟩
        rw [heq]
        rfl
      · refine ⟨firstMax first rest, first :: l₁, l₂, rfl, ?_, ?_, hl₂⟩
        · rw [List.cons_append, ← hdec]
        · intro y hy
          rcases List.mem_cons.mp hy with rfl | hy
          · exact hgt
          · exact hl₁ y hy

/-- Helper: identity-based removal of the best member, given that the
group's members are pairwise distinct. -/
theorem filter_ne_of_decomp {l₁ l₂ : List Candidate} {b : Candidate}
    (hnd : (l₁ ++ b :: l₂).Nodup) :
    (l₁ ++ b :: l₂).filter (fun c => c ≠ b) = l₁ ++ l₂ := by
  rw [List.nodup_append] at hnd
  obtain ⟨hnd₁, hnd₂, hdisj⟩ := hnd
  have hb₁ : b ∉ l₁ := fun hmem => hdisj hmem (List.mem_cons_self b l₂)
  have hb₂ : b ∉ l₂ := (List.nodup_cons.mp hnd₂).1
  rw [List.filter_append, List.filter_cons]
  rw [if_neg (by simp)]
  have h₁ : l₁.filter (fun c => c ≠ b) = l₁ :=
    List.filter_eq_self.mpr fun x hx => by
      simp only [ne_eq, decide_eq_true_eq]
      exact fun hxb => hb₁ (hxb ▸ hx)
  have h₂ : l₂.filter (fun c => c ≠ b) = l₂ :=
    List.filter_eq_self.mpr fun x hx => by
      simp only [ne_eq, decide_eq_true_eq]
      exact fun hxb => hb₂ (hxb ▸ hx)
  rw [h₁, h₂]

/-- Helper: substituting one fixed quality record into every member
commutes with the `max` fold, since the key ignores quality. -/
theorem firstMax_quality (q : QualityMetrics) (rest : List Candidate) :
    ∀ acc : Candidate,
      firstMax (setQuality q acc) (rest.map (setQuality q)) =
        setQuality q (firstMax acc rest) := by
  induction rest with
  | nil => intro acc; rfl
  | cons x rest ih =>
      intro acc
      rw [List.map_cons, firstMax_cons, firstMax_cons, candKey_setQuality,
        candKey_setQuality]
      by_cases h : pairGt (candKey x) (candKey acc) = true
      · rw [if_pos h, if_pos h, ih]
      · rw [if_neg h, if_neg h, ih]

/-- Helper: substituting one fixed quality record into every member
commutes with taking the best candidate. -/
theorem best_candidate_quality (q : QualityMetrics) (g : List Candidate) :
    best_candidate (g.map (setQuality q)) =
      (best_candidate g).map (setQuality q) := by
  cases g with
  | nil => rfl
  | cons first rest =>
      simp only [List.map_cons, best_candidate, firstMax_quality,
        Option.map_some']

/-- **C3**: for a group of distinct candidates, the designated best
candidate is a member maximizing `(file_size, image_area)`
lexicographically, quality metrics are never consulted (replacing every
member's quality record leaves the choice unchanged), and
`get_wasted_space + best.file_size = get_total_size`. -/
theorem C3_best_candidate_maximal (g : List Candidate) (hne : g ≠ [])
    (hnd : g.Nodup) :
    ∃ b, best_candidate g = some b ∧ b ∈ g ∧
      (∀ c ∈ g, pairGt (candKey c) (candKey b) = false) ∧
      get_wasted_space g + b.file_size = get_total_size g ∧
      ∀ q, best_candidate (g.map (setQuality q)) = some (setQuality q b) := by
  obtain ⟨b, l₁, l₂, hbest, hdec, hl₁, hl₂⟩ := best_candidate_decomp g hne
  refine ⟨b, hbest, ?_, ?_, ?_, ?_⟩
  · rw [hdec]
    exact List.mem_append_right _ (List.mem_cons_self b _)
  · intro c hc
    rw [hdec] at hc
    rcases List.mem_append.mp hc with hc | hc
    · exact pairGt_asymm (hl₁ c hc)
    · rcases List.mem_cons.mp hc with rfl | hc
      · exact pairGt_irrefl _
      · exact hl₂ c hc
  · have hrem : duplicates_to_remove g = g.filter (fun c => c ≠ b) := by
      unfold duplicates_to_remove
      rw [hbest]
    rw [get_wasted_space, hrem, hdec, filter_ne_of_decomp (hdec ▸ hnd),
      get_total_size]
    simp only [List.map_append, List.sum_append, List.map_cons,
      List.sum_cons]
    omega
  · intro q
    rw [best_candidate_quality, hbest, Option.map_some']

/-- Witness for C3 on a concrete two-member group. -/
theorem C3_best_candidate_maximal_witness :
    ∃ b, best_candidate [sampleA, sampleB] = some b ∧
      b ∈ [sampleA, sampleB] ∧
      (∀ c ∈ [sampleA, sampleB], pairGt (candKey c) (candKey b) = false) ∧
      get_wasted_space [sampleA, sampleB] + b.file_size =
        get_total_size [sampleA, sampleB] ∧
      ∀ q, best_candidate ([sampleA, sampleB].map (setQuality q)) =
        some (setQuality q b) :=
  C3_best_candidate_maximal [sampleA, sampleB] (by decide) (by decide)

/-- **C10**: in a non-empty group of distinct candidates the best
candidate is the earliest member attaining the maximal
`(file_size, image_area)` key (everything before it is strictly smaller,
nothing after it is greater), the choice is a deterministic function of
the group (so repeated accesses agree), and `duplicates_to_remove` is the
member list with exactly that member removed, in the original order. -/
theorem C10_earliest_max_removed (g : List Candidate) (hne : g ≠ [])
    (hnd : g.Nodup) :
    ∃ b l₁ l₂, best_candidate g = some b ∧ g = l₁ ++ b :: l₂ ∧
      (∀ x ∈ l₁, pairGt (candKey b) (candKey x) = true) ∧
      (∀ x ∈ l₂, pairGt (candKey x) (candKey b) = false) ∧
      duplicates_to_remove g = l₁ ++ l₂ := by
  obtain ⟨b, l₁, l₂, hbest, hdec, hl₁, hl₂⟩ := best_candidate_decomp g hne
  refine ⟨b, l₁, l₂, hbest, hdec, hl₁, hl₂, ?_⟩
  unfold duplicates_to_remove
  rw [hbest, hdec]
  show (l₁ ++ b :: l₂).filter (fun c => c ≠ b) = l₁ ++ l₂
  exact filter_ne_of_decomp (hdec ▸ hnd)

/-- Witness for C10 on a group with a tie for the maximal key. -/
theorem C10_earliest_max_removed_witness :
    ∃ b l₁ l₂, best_candidate [sampleA, sampleB, sampleC] = some b ∧
      [sampleA, sampleB, sampleC] = l₁ ++ b :: l₂ ∧
      (∀ x ∈ l₁, pairGt (candKey b) (candKey x) = true) ∧
      (∀ x ∈ l₂, pairGt (candKey x) (candKey b) = false) ∧
      duplicates_to_remove [sampleA, sampleB, sampleC] = l₁ ++ l₂ :=
  C10_earliest_max_removed [sampleA, sampleB, sampleC] (by decide) (by decide)

/-- Helper: keys of the digest map after one insertion — unchanged if the
key is known, appended at the end otherwise. -/
theorem addToMap_keys (k : String) (c : Candidate) :
    ∀ m : List (String × List Candidate),
      (addToMap m k c).map Prod.fst =
        if k ∈ m.map Prod.fst then m.map Prod.fst
        else m.map Prod.fst ++ [k] := by
  intro m
  induction m with
  | nil => simp [addToMap]
  | cons hd rest ih =>
      obtain ⟨k', cs⟩ := hd
      simp only [addToMap]
      by_cases h : k' = k
      · subst h
        simp
      · rw [if_neg h]
        simp only [List.map_cons, ih]
        by_cases hk : k ∈ rest.map Prod.fst
        · rw [if_pos hk, if_pos (List.mem_cons_of_mem _ hk)]
        · rw [if_neg hk, if_neg ?_, List.cons_append]
          intro hmem
          rcases List.mem_cons.mp hmem with he | hmem
          · exact h he.symm
          · exact hk hmem

/-- Helper: an entry of the map after insertion is either an untouched
old entry with a different key, or the entry for the inserted key with
the candidate appended to its (possibly fresh) value list. -/
theorem addToMap_mem (k : String) (c : Candidate) :
    ∀ m : List (String × List Candidate), (m.map Prod.fst).Nodup →
      ∀ kv ∈ addToMap m k c,
        (kv.1 ≠ k ∧ kv ∈ m) ∨
        (kv.1 = k ∧ ∃ v, kv = (k, v ++ [c]) ∧
          ((k, v) ∈ m ∨ (v = [] ∧ k ∉ m.map Prod.fst))) := by
  intro m
  induction m with
  | nil =>
      intro _ kv hkv
      simp only [addToMap, List.mem_singleton] at hkv
      subst hkv
      right
      exact ⟨rfl, [], rfl, Or.inr ⟨rfl, by simp⟩⟩
  | cons hd rest ih =>
      obtain ⟨k', cs⟩ := hd
      intro hnd kv hkv
      simp only [List.map_cons, List.nodup_cons] at hnd
      simp only [addToMap] at hkv
      by_cases h : k' = k
      · subst h
        rw [if_pos rfl] at hkv
        rcases List.mem_cons.mp hkv with rfl | hkv
        · exact Or.inr ⟨rfl, cs, rfl, Or.inl (List.mem_cons_self _ _)⟩
        · left
          refine ⟨?_, List.mem_cons_of_mem _ hkv⟩
          intro he
          exact hnd.1 (he ▸ List.mem_map_of_mem Prod.fst hkv)
      · rw [if_neg h] at hkv
        rcases List.mem_cons.mp hkv with rfl | hkv
        · exact Or.inl ⟨h, List.mem_cons_self _ _⟩
        · rcases ih hnd.2 kv hkv with ⟨hne, hmem⟩ | ⟨heq, v, hv, hcase⟩
          · exact Or.inl ⟨hne, List.mem_cons_of_mem _ hmem⟩
          · right
            refine ⟨heq, v, hv, ?_⟩
            rcases hcase with hmem | ⟨hveq, hknotin⟩
            · exact Or.inl (List.mem_cons_of_mem _ hmem)
            · refine Or.inr ⟨hveq, ?_⟩
              simp only [List.map_cons, List.mem_cons]
              rintro (rfl | hmem')
              · exact h rfl
              · exact hknotin hmem'

/-- The invariant of the digest-map building loop of
`find_exact_duplicates`, relative to the already consumed prefix `p`:
keys are distinct and non-empty, each entry holds exactly the consumed
candidates with that digest in input order, and every consumed candidate
with a non-empty digest has its key present. -/
def digestMapInv (p : List Candidate)
    (m : List (String × List Candidate)) : Prop :=
  (m.map Prod.fst).Nodup ∧
  (∀ kv ∈ m, kv.1 ≠ "" ∧
    kv.2 = p.filter (fun c => c.get_md5_hash = kv.1)) ∧
  (∀ c ∈ p, c.get_md5_hash ≠ "" → c.get_md5_hash ∈ m.map Prod.fst)

/-- Helper: consuming one candidate preserves the digest-map
invariant. -/
theorem digestMapInv_step {p : List Candidate}
    {m : List (String × List Candidate)} (c : Candidate)
    (hinv : digestMapInv p m) :
    digestMapInv (p ++ [c])
      (if c.get_md5_hash ≠ "" then addToMap m c.get_md5_hash c else m) := by
  obtain ⟨hnd, hent, hkeys⟩ := hinv
  by_cases hd : c.get_md5_hash ≠ ""
  · rw [if_pos hd]
    refine ⟨?_, ?_, ?_⟩
    · rw [addToMap_keys]
      by_cases hk : c.get_md5_hash ∈ m.map Prod.fst
      · rw [if_pos hk]
        exact hnd
      · rw [if_neg hk]
        refine List.Nodup.append hnd (List.nodup_singleton _) ?_
        intro x hx hx'
        rw [List.mem_singleton] at hx'
        exact hk (hx' ▸ hx)
    · intro kv hkv
      rcases addToMap_mem _ c m hnd kv hkv with ⟨hne, hmem⟩ |
        ⟨heq, v, hv, hcase⟩
      · obtain ⟨hne', hval⟩ := hent kv hmem
        refine ⟨hne', ?_⟩
        rw [List.filter_append, hval]
        have : [c].filter (fun x => x.get_md5_hash = kv.1) = [] := by
          simp only [List.filter_cons, List.filter_nil, decide_eq_true_eq]
          rw [if_neg (fun he => hne he.symm)]
        rw [this, List.append_nil]
      · subst hv
        refine ⟨heq ▸ hd, ?_⟩
        rcases hcase with hmem | ⟨hveq, hknotin⟩
        · obtain ⟨_, hval⟩ := hent _ hmem
          simp only at hval ⊢
          rw [List.filter_append, ← hval]
          simp [List.filter_cons]
        · subst hveq
          have hfil : p.filter (fun x => x.get_md5_hash = c.get_md5_hash) = [] := by
            rw [List.filter_eq_nil_iff]
            intro a ha
            simp only [decide_eq_true_eq]
            intro hae
            exact hknotin (hae ▸ hkeys a ha (hae.symm ▸ hd))
          simp only
          rw [List.filter_append, hfil]
          simp [List.filter_cons]
    · intro x hx hxe
      rw [addToMap_keys]
      rcases List.mem_append.mp hx with hx | hx
      · have := hkeys x hx hxe
        by_cases hk : c.get_md5_hash ∈ m.map Prod.fst
        · rw [if_pos hk]; exact this
        · rw [if_neg hk]; exact List.mem_append_left _ this
      · rw [List.mem_singleton] at hx
        subst hx
        by_cases hk : x.get_md5_hash ∈ m.map Prod.fst
        · rw [if_pos hk]; exact hk
        · rw [if_neg hk]
          exact List.mem_append_right _ (List.mem_singleton_self _)
  · rw [if_neg hd]
    push_neg at hd
    refine ⟨hnd, ?_, ?_⟩
    · intro kv hkv
      obtain ⟨hne, hval⟩ := hent kv hkv
      refine ⟨hne, ?_⟩
      rw [List.filter_append, hval]
      have : [c].filter (fun x => x.get_md5_hash = kv.1) = [] := by
        simp [List.filter_cons, hd]
        exact fun he => hne he.symm
      rw [this, List.append_nil]
    · intro x hx hxe
      rcases List.mem_append.mp hx with hx | hx
      · exact hkeys x hx hxe
      · rw [List.mem_singleton] at hx
        exact absurd (hx ▸ hd) hxe

/-- Helper: the digest-map invariant holds of the finished map. -/
theorem buildDigestMap_inv : ∀ (cs p : List Candidate)
    (m : List (String × List Candidate)),
    digestMapInv p m → digestMapInv (p ++ cs) (buildDigestMap cs m) := by
  intro cs
  induction cs with
  | nil =>
      intro p m h
      simpa using h
  | cons c rest ih =>
      intro p m h
      simp only [buildDigestMap]
      have hstep := digestMapInv_step c h
      by_cases hd : c.get_md5_hash ≠ ""
      · rw [if_pos hd]
        rw [if_pos hd] at hstep
        have := ih (p ++ [c]) _ hstep
        simpa using this
      · rw [if_neg hd]
        rw [if_neg hd] at hstep
        have := ih (p ++ [c]) _ hstep
        simpa using this

/-- Helper: every group emitted by `find_exact_duplicates` has more than
one member and is exactly the input's sublist of candidates bearing one
fixed non-empty digest. -/
theorem find_exact_groups_shape (cs : List Candidate) :
    ∀ g ∈ find_exact_duplicates cs, 1 < g.length ∧
      ∃ d, d ≠ "" ∧ g = cs.filter (fun c => c.get_md5_hash = d) := by
  have hinv : digestMapInv cs (buildDigestMap cs []) := by
    have := buildDigestMap_inv cs [] [] ⟨by simp, by simp, by simp⟩
    simpa using this
  intro g hg
  unfold find_exact_duplicates at hg
  rcases List.mem_filterMap.mp hg with ⟨kv, hkv, hfk⟩
  by_cases hlen : 1 < kv.2.length
  · rw [if_pos hlen] at hfk
    cases hfk
    obtain ⟨hne, hval⟩ := hinv.2.1 kv hkv
    exact ⟨hlen, kv.1, hne, hval⟩
  · rw [if_neg hlen] at hfk
    cases hfk

/-- **C2** (corrected): a digest-computation I/O failure does substitute
the empty string for the digest, but — contrary to the claim — candidates
with empty digests are skipped by the `if md5_hash:` guard and therefore
never appear in any group emitted by `find_exact_duplicates`, let alone
get pooled together. -/
theorem C2_digest_failure_not_pooled :
    (∀ c : Candidate, c.digest_outcome = none → c.get_md5_hash = "") ∧
    (∀ cs : List Candidate, ∀ g ∈ find_exact_duplicates cs, ∀ c ∈ g,
      c.get_md5_hash ≠ "") := by
  constructor
  · intro c hc
    unfold Candidate.get_md5_hash
    rw [hc]
  · intro cs g hg c hc
    obtain ⟨-, d, hdne, hge⟩ := find_exact_groups_shape cs g hg
    rw [hge] at hc
    have := (List.mem_filter.mp hc).2
    simp only [decide_eq_true_eq] at this
    rw [this]
    exact hdne

/-- Witness for C2 on concrete candidates: a failed digest yields `""`,
and a member of an actually emitted group has a non-empty digest. -/
theorem C2_digest_failure_not_pooled_witness :
    Candidate.get_md5_hash failA = "" ∧
      Candidate.get_md5_hash sampleA ≠ "" :=
  ⟨C2_digest_failure_not_pooled.1 failA rfl,
   C2_digest_failure_not_pooled.2 [sampleA, sampleB] [sampleA, sampleB]
     (by decide) sampleA (by decide)⟩

/-- Counterexample for C2 as stated: two candidates whose digest
computation failed share the empty digest, yet `find_exact_duplicates`
emits no group at all, so they are never pooled. -/
theorem C2_digest_failure_not_pooled_cex :
    failA.digest_outcome = none ∧ failB.digest_outcome = none ∧
      find_exact_duplicates [failA, failB] = [] := by
  decide

/-- **C6** (corrected): every emitted group has more than one member and
all members share one digest, and every *non-empty* digest value shared
by more than one input candidate yields exactly one emitted group,
namely the input sublist of candidates with that digest.  (For the empty
digest — the I/O-failure substitute — no group is emitted, see the
counterexample.) -/
theorem C6_find_exact_duplicates_grouping (cs : List Candidate) :
    (∀ g ∈ find_exact_duplicates cs, 1 < g.length ∧
      ∃ d, (∀ c ∈ g, c.get_md5_hash = d) ∧ ∀ c ∈ g, c ∈ cs) ∧
    (∀ d : String, d ≠ "" →
      1 < (cs.filter (fun c => c.get_md5_hash = d)).length →
      cs.filter (fun c => c.get_md5_hash = d) ∈ find_exact_duplicates cs ∧
      ∀ g ∈ find_exact_duplicates cs, (∃ c ∈ g, c.get_md5_hash = d) →
        g = cs.filter (fun c => c.get_md5_hash = d)) := by
  have hinv : digestMapInv cs (buildDigestMap cs []) := by
    have := buildDigestMap_inv cs [] [] ⟨by simp, by simp, by simp⟩
    simpa using this
  constructor
  · intro g hg
    obtain ⟨hlen, d, -, hge⟩ := find_exact_groups_shape cs g hg
    refine ⟨hlen, d, ?_, ?_⟩
    · intro c hc
      rw [hge] at hc
      have := (List.mem_filter.mp hc).2
      simpa using this
    · intro c hc
      rw [hge] at hc
      exact (List.mem_filter.mp hc).1
  · intro d hdne hlen
    have hmem : ∃ c ∈ cs, c.get_md5_hash = d := by
      have hpos : 0 < (cs.filter (fun c => c.get_md5_hash = d)).length := by
        omega
      obtain ⟨c, hc⟩ := List.exists_mem_of_length_pos hpos
      have := List.mem_filter.mp hc
      exact ⟨c, this.1, by simpa using this.2⟩
    obtain ⟨c, hccs, hcd⟩ := hmem
    have hdkey : d ∈ (buildDigestMap cs []).map Prod.fst :=
      hcd ▸ hinv.2.2 c hccs (hcd.symm ▸ hdne)
    obtain ⟨kv, hkv, hkveq⟩ := List.mem_map.mp hdkey
    obtain ⟨-, hval⟩ := hinv.2.1 kv hkv
    have hval' : kv.2 = cs.filter (fun c => c.get_md5_hash = d) := by
      rw [hval, hkveq]
    constructor
    · unfold find_exact_duplicates
      refine List.mem_filterMap.mpr ⟨kv, hkv, ?_⟩
      rw [if_pos (hval' ▸ hlen), hval']
    · intro g hg ⟨c', hc'g, hc'd⟩
      obtain ⟨-, d', -, hge⟩ := find_exact_groups_shape cs g hg
      have : c'.get_md5_hash = d' := by
        rw [hge] at hc'g
        simpa using (List.mem_filter.mp hc'g).2
      rw [hge, ← hc'd, this]

/-- Witness for C6 on a concrete input with one shared digest. -/
theorem C6_find_exact_duplicates_grouping_witness :
    [sampleA, sampleB].filter (fun c => c.get_md5_hash = "d1") ∈
        find_exact_duplicates [sampleA, sampleB] ∧
      (∀ g ∈ find_exact_duplicates [sampleA, sampleB],
        (∃ c ∈ g, c.get_md5_hash = "d1") →
        g = [sampleA, sampleB].filter (fun c => c.get_md5_hash = "d1")) :=
  (C6_find_exact_duplicates_grouping [sampleA, sampleB]).2 "d1"
    (by decide) (by decide)

/-- Counterexample for C6 as stated: the digest value `""` is shared by
two input candidates, yet no group is emitted for it. -/
theorem C6_empty_digest_no_group_cex :
    1 < (([failA, failB] : List Candidate).filter
        (fun c => c.get_md5_hash = "")).length ∧
      find_exact_duplicates [failA, failB] = [] := by
  decide

/-- Helper: removing the best member of a non-empty group of distinct
candidates drops exactly one element. -/
theorem duplicates_to_remove_length (g : List Candidate) (hne : g ≠ [])
    (hnd : g.Nodup) : (duplicates_to_remove g).length = g.length - 1 := by
  obtain ⟨b, l₁, l₂, hbest, hdec, -, -⟩ := best_candidate_decomp g hne
  have hrem : duplicates_to_remove g = l₁ ++ l₂ := by
    unfold duplicates_to_remove
    rw [hbest, hdec]
    show (l₁ ++ b :: l₂).filter (fun c => c ≠ b) = l₁ ++ l₂
    exact filter_ne_of_decomp (hdec ▸ hnd)
  rw [hrem, hdec]
  simp only [List.length_append, List.length_cons]
  omega

/-- **C7**: `get_statistics` returns the group count, the member-count
sum, the to-remove sum (which is `size - 1` per group), their
difference, the byte sums, and the savings ratio guarded against a zero
total; the empty group list yields the all-zero record. -/
theorem C7_get_statistics_fields (groups : List (List Candidate))
    (h : ∀ g ∈ groups, g ≠ [] ∧ g.Nodup) :
    (get_statistics groups).duplicate_groups = groups.length ∧
    (get_statistics groups).total_files_in_groups =
      (groups.map List.length).sum ∧
    (get_statistics groups).duplicate_files =
      (groups.map (fun g => (duplicates_to_remove g).length)).sum ∧
    (get_statistics groups).duplicate_files =
      (groups.map (fun g => g.length - 1)).sum ∧
    (get_statistics groups).original_files =
      ((get_statistics groups).total_files_in_groups : Int) -
        (get_statistics groups).duplicate_files ∧
    (get_statistics groups).total_size_bytes =
      (groups.map get_total_size).sum ∧
    (get_statistics groups).wasted_space_bytes =
      (groups.map get_wasted_space).sum ∧
    (get_statistics groups).space_savings_percent =
      (if 0 < (get_statistics groups).total_size_bytes then
        ((get_statistics groups).wasted_space_bytes : ℚ) /
          (get_statistics groups).total_size_bytes * 100
      else 0) ∧
    get_statistics [] = ⟨0, 0, 0, 0, 0, 0, 0⟩ := by
  refine ⟨rfl, rfl, rfl, ?_, rfl, rfl, rfl, rfl, rfl⟩
  show (groups.map (fun g => (duplicates_to_remove g).length)).sum =
    (groups.map (fun g => g.length - 1)).sum
  have : groups.map (fun g => (duplicates_to_remove g).length) =
      groups.map (fun g => g.length - 1) :=
    List.map_congr_left fun g hg =>
      duplicates_to_remove_length g (h g hg).1 (h g hg).2
  rw [this]

/-- Witness for C7 on one concrete two-member group. -/
theorem C7_get_statistics_fields_witness :
    (get_statistics [[sampleA, sampleB]]).duplicate_groups =
      [[sampleA, sampleB]].length ∧
    (get_statistics [[sampleA, sampleB]]).total_files_in_groups =
      ([[sampleA, sampleB]].map List.length).sum ∧
    (get_statistics [[sampleA, sampleB]]).duplicate_files =
      ([[sampleA, sampleB]].map
        (fun g => (duplicates_to_remove g).length)).sum ∧
    (get_statistics [[sampleA, sampleB]]).duplicate_files =
      ([[sampleA, sampleB]].map (fun g => g.length - 1)).sum ∧
    (get_statistics [[sampleA, sampleB]]).original_files =
      ((get_statistics [[sampleA, sampleB]]).total_files_in_groups : Int) -
        (get_statistics [[sampleA, sampleB]]).duplicate_files ∧
    (get_statistics [[sampleA, sampleB]]).total_size_bytes =
      ([[sampleA, sampleB]].map get_total_size).sum ∧
    (get_statistics [[sampleA, sampleB]]).wasted_space_bytes =
      ([[sampleA, sampleB]].map get_wasted_space).sum ∧
    (get_statistics [[sampleA, sampleB]]).space_savings_percent =
      (if 0 < (get_statistics [[sampleA, sampleB]]).total_size_bytes then
        ((get_statistics [[sampleA, sampleB]]).wasted_space_bytes : ℚ) /
          (get_statistics [[sampleA, sampleB]]).total_size_bytes * 100
      else 0) ∧
    get_statistics [] = ⟨0, 0, 0, 0, 0, 0, 0⟩ :=
  C7_get_statistics_fields [[sampleA, sampleB]] (by decide)

/-- **C9**: the similarity predicate is the inclusive comparison
`distance ≤ threshold` and is monotone in the threshold. -/
theorem C9_are_similar_monotone (a b : String) (T Tp : Nat)
    (h : are_similar T a b = true) (hT : T < Tp) :
    are_similar Tp a b = true := by
  unfold are_similar at h ⊢
  cases e : calculate_hamming_distance a b with
  | none => rw [e] at h; simp at h
  | some d =>
      rw [e] at h
      revert h
      show decide (d ≤ T) = true → decide (d ≤ Tp) = true
      simp only [decide_eq_true_eq]
      omega

/-- Witness for C9 on a concrete pair one bit apart. -/
theorem C9_are_similar_monotone_witness :
    are_similar 1 "F0F0" "F0F1" = true ∧ 1 < 4 ∧
      are_similar 4 "F0F0" "F0F1" = true :=
  ⟨by decide, by decide,
   C9_are_similar_monotone "F0F0" "F0F1" 1 4 (by decide) (by decide)⟩

/-- Helper: indices produced by `List.enumFrom` are at least the start
index. -/
theorem enumFrom_fst_le {α : Type} (l : List α) :
    ∀ (n : Nat) (x : Nat × α), x ∈ l.enumFrom n → n ≤ x.1 := by
  induction l with
  | nil =>
      intro n x hx
      simp [List.enumFrom] at hx
  | cons a l ih =>
      intro n x hx
      simp only [List.enumFrom] at hx
      rcases List.mem_cons.mp hx with rfl | hx
      · exact Nat.le_refl n
      · have := ih (n + 1) x hx
        omega

/-- Helper: the indices of `List.enumFrom` are strictly increasing. -/
theorem enumFrom_pairwise_lt {α : Type} (l : List α) :
    ∀ n : Nat, (l.enumFrom n).Pairwise (fun a b => a.1 < b.1) := by
  induction l with
  | nil => intro n; simp [List.enumFrom]
  | cons a l ih =>
      intro n
      refine List.Pairwise.cons ?_ (ih (n + 1))
      intro y hy
      have := enumFrom_fst_le l (n + 1) y hy
      omega

/-- Helper: what the inner scan of `find_duplicates` guarantees — the
selection is an ordered sublist of the scanned candidates, the consumed
set only grows, and each selected member was unconsumed, is now
consumed, has a present hash, and is similar to the anchor hash. -/
theorem simInner_spec (threshold : Nat) (anchorHash : String) :
    ∀ (l : List (Nat × Candidate)) (p : List Nat),
      (simInner threshold anchorHash l p).1.Sublist l ∧
      (∀ j ∈ p, j ∈ (simInner threshold anchorHash l p).2) ∧
      (∀ x ∈ (simInner threshold anchorHash l p).1,
        x.1 ∉ p ∧ x.1 ∈ (simInner threshold anchorHash l p).2 ∧
        x.2.hashPresent = true ∧
        are_similar threshold anchorHash x.2.hashStr = true) := by
  intro l
  induction l with
  | nil =>
      intro p
      refine ⟨List.Sublist.refl _, fun j hj => hj, ?_⟩
      intro x hx
      simp [simInner] at hx
  | cons hd rest ih =>
      obtain ⟨j, c2⟩ := hd
      intro p
      simp only [simInner]
      by_cases h1 : j ∈ p ∨ ¬ c2.hashPresent = true
      · rw [if_pos h1]
        obtain ⟨hsub, hp, hx⟩ := ih p
        exact ⟨hsub.cons _, hp, hx⟩
      · rw [if_neg h1]
        push_neg at h1
        obtain ⟨hjp, hpres⟩ := h1
        by_cases h2 : are_similar threshold anchorHash c2.hashStr = true
        · rw [if_pos h2]
          obtain ⟨hsub, hp, hx⟩ := ih (j :: p)
          refine ⟨hsub.cons₂ _, ?_, ?_⟩
          · intro i hi
            exact hp i (List.mem_cons_of_mem _ hi)
          · intro x hx'
            rcases List.mem_cons.mp hx' with rfl | hx'
            · exact ⟨hjp, hp j (List.mem_cons_self _ _), hpres, h2⟩
            · obtain ⟨hnp, hmem2, hpres', hsim⟩ := hx x hx'
              exact ⟨fun hin => hnp (List.mem_cons_of_mem _ hin), hmem2,
                hpres', hsim⟩
        · rw [if_neg h2]
          obtain ⟨hsub, hp, hx⟩ := ih p
          exact ⟨hsub.cons _, hp, hx⟩

/-- Helper: what the outer scan of `find_duplicates` guarantees for a
strictly index-sorted worklist — each emitted group has at least two
members, all of them unconsumed entries of the worklist with present
hashes, the group opens with its anchor whose index is the smallest and
to whose hash every other member is similar, and the emitted groups have
pairwise disjoint index sets. -/
theorem simOuter_spec (threshold : Nat) :
    ∀ (l : List (Nat × Candidate)) (p : List Nat),
      l.Pairwise (fun a b => a.1 < b.1) →
      (∀ G ∈ simOuter threshold l p,
        2 ≤ G.length ∧
        (∀ x ∈ G, x ∈ l ∧ x.1 ∉ p ∧ x.2.hashPresent = true) ∧
        ∃ a t, G = a :: t ∧ ∀ x ∈ t, a.1 < x.1 ∧
          are_similar threshold a.2.hashStr x.2.hashStr = true) ∧
      (simOuter threshold l p).Pairwise
        (fun G H => ∀ x ∈ G, ∀ y ∈ H, x.1 ≠ y.1) := by
  intro l
  induction l with
  | nil =>
      intro p _
      constructor
      · intro G hG
        simp [simOuter] at hG
      · simp [simOuter]
  | cons hd rest ih =>
      obtain ⟨i, c1⟩ := hd
      intro p hpw
      have hhead : ∀ x ∈ rest, i < x.1 := (List.pairwise_cons.mp hpw).1
      have hrest : rest.Pairwise (fun a b => a.1 < b.1) :=
        (List.pairwise_cons.mp hpw).2
      simp only [simOuter]
      by_cases h1 : i ∈ p ∨ ¬ c1.hashPresent = true
      · rw [if_pos h1]
        obtain ⟨hmem, hpw'⟩ := ih p hrest
        refine ⟨?_, hpw'⟩
        intro G hG
        obtain ⟨hlen, hx, hanc⟩ := hmem G hG
        exact ⟨hlen, fun x hx' => ⟨List.mem_cons_of_mem _ (hx x hx').1,
          (hx x hx').2.1, (hx x hx').2.2⟩, hanc⟩
      · rw [if_neg h1]
        push_neg at h1
        obtain ⟨hni, hpres⟩ := h1
        obtain ⟨hsub, hp, hselx⟩ :=
          simInner_spec threshold c1.hashStr rest (i :: p)
        by_cases h2 : 1 < ((i, c1) ::
            (simInner threshold c1.hashStr rest (i :: p)).1).length
        · rw [if_pos h2]
          obtain ⟨hmemIH, hpwIH⟩ :=
            ih (simInner threshold c1.hashStr rest (i :: p)).2 hrest
          constructor
          · intro G hG
            rcases List.mem_cons.mp hG with rfl | hG
            · refine ⟨h2, ?_, ?_⟩
              · intro x hx'
                rcases List.mem_cons.mp hx' with rfl | hx'
                · exact ⟨List.mem_cons_self _ _, hni, hpres⟩
                · have hxsel := hselx x hx'
                  have hxrest : x ∈ rest := hsub.subset hx'
                  exact ⟨List.mem_cons_of_mem _ hxrest,
                    fun hin => hxsel.1 (List.mem_cons_of_mem _ hin),
                    hxsel.2.2.1⟩
              · refine ⟨(i, c1), _, rfl, ?_⟩
                intro x hx'
                have hxrest := hsub.subset hx'
                exact ⟨hhead x hxrest, (hselx x hx').2.2.2⟩
            · obtain ⟨hlen, hx, hanc⟩ := hmemIH G hG
              refine ⟨hlen, ?_, hanc⟩
              intro x hx'
              obtain ⟨hxl, hxnp, hxpres⟩ := hx x hx'
              exact ⟨List.mem_cons_of_mem _ hxl,
                fun hin => hxnp (hp x.1 (List.mem_cons_of_mem _ hin)),
                hxpres⟩
          · rw [List.pairwise_cons]
            constructor
            · intro H hH x hxG y hyH
              have hyn : y.1 ∉ (simInner threshold c1.hashStr rest (i :: p)).2 :=
                ((hmemIH H hH).2.1 y hyH).2.1
              have hxin : x.1 ∈ (simInner threshold c1.hashStr rest (i :: p)).2 := by
                rcases List.mem_cons.mp hxG with rfl | hxG
                · exact hp i (List.mem_cons_self _ _)
                · exact (hselx x hxG).2.1
              intro he
              exact hyn (he ▸ hxin)
            · exact hpwIH
        · rw [if_neg h2]
          obtain ⟨hmemIH, hpwIH⟩ :=
            ih (simInner threshold c1.hashStr rest (i :: p)).2 hrest
          refine ⟨?_, hpwIH⟩
          intro G hG
          obtain ⟨hlen, hx, hanc⟩ := hmemIH G hG
          refine ⟨hlen, ?_, hanc⟩
          intro x hx'
          obtain ⟨hxl, hxnp, hxpres⟩ := hx x hx'
          exact ⟨List.mem_cons_of_mem _ hxl,
            fun hin => hxnp (hp x.1 (List.mem_cons_of_mem _ hin)), hxpres⟩

/-- **C1**: every group emitted by `find_duplicates` has at least two
members, each member is an input candidate (at its input index) with a
present (truthy) fingerprint, the group opens with its anchor — the
member with the smallest input index — every non-anchor member is
similar to the anchor's hash (membership is decided against the anchor
only), and no input position belongs to two emitted groups. -/
theorem C1_find_duplicates_groups (threshold : Nat)
    (candidates : List Candidate) :
    (∀ G ∈ findDupGroups threshold candidates,
      2 ≤ G.length ∧
      (∀ x ∈ G, candidates[x.1]? = some x.2 ∧ x.2.hashPresent = true) ∧
      ∃ a t, G = a :: t ∧ ∀ x ∈ t, a.1 < x.1 ∧
        are_similar threshold a.2.hashStr x.2.hashStr = true) ∧
    (findDupGroups threshold candidates).Pairwise
      (fun G H => ∀ x ∈ G, ∀ y ∈ H, x.1 ≠ y.1) ∧
    find_duplicates threshold candidates =
      (findDupGroups threshold candidates).map (List.map Prod.snd) := by
  have hpw : candidates.enum.Pairwise (fun a b => a.1 < b.1) :=
    enumFrom_pairwise_lt candidates 0
  obtain ⟨hmem, hpw'⟩ := simOuter_spec threshold candidates.enum [] hpw
  refine ⟨?_, hpw', rfl⟩
  intro G hG
  obtain ⟨hlen, hx, hanc⟩ := hmem G hG
  refine ⟨hlen, ?_, hanc⟩
  intro x hx'
  obtain ⟨hxl, -, hxpres⟩ := hx x hx'
  refine ⟨?_, hxpres⟩
  obtain ⟨xi, xc⟩ := x
  exact List.mk_mem_enum_iff_getElem?.mp hxl

/-- Witness for C1: two similar candidates form the single emitted
group, anchored at index 0. -/
theorem C1_find_duplicates_groups_witness :
    2 ≤ ([(0, sampleA), (1, sampleB)] : List (Nat × Candidate)).length ∧
      (∀ x ∈ ([(0, sampleA), (1, sampleB)] : List (Nat × Candidate)),
        [sampleA, sampleB][x.1]? = some x.2 ∧ x.2.hashPresent = true) ∧
      ∃ a t, ([(0, sampleA), (1, sampleB)] : List (Nat × Candidate)) = a :: t ∧
        ∀ x ∈ t, a.1 < x.1 ∧
          are_similar 4 a.2.hashStr x.2.hashStr = true :=
  (C1_find_duplicates_groups 4 [sampleA, sampleB]).1
    [(0, sampleA), (1, sampleB)] (by decide)

end Photosort
